import Mathlib

/-
Verification of the content-loading and locale-routing core of a personal
blog repository.  The definitions are shallow embeddings of the
TypeScript source: the locale resolver of `lib/locale.ts` together with
`middleware.ts`, the dictionary loader of `lib/dictionary.ts`, and the
content loader, sibling resolver and reading-time estimate of
`lib/markdown.ts`.
-/

set_option maxRecDepth 100000

/-! ### String primitives

The JavaScript string operations the source uses, implemented over
character lists so that every theorem below evaluates by kernel
reduction. -/

/-- JavaScript `String.prototype.split("/")`: cut at every slash; a slash
at either end or a doubled slash contributes an empty piece, and the
empty string yields one empty piece. -/
def splitSlash : List Char → List (List Char)
  | [] => [[]]
  | c :: cs =>
    if c = '/' then [] :: splitSlash cs
    else match splitSlash cs with
      | [] => [[c]]
      | p :: ps => (c :: p) :: ps

/-- `pathname.split("/")` as a string-level operation. -/
def jsSplitOnSlash (s : String) : List String := (splitSlash s.toList).map String.mk

/-- JavaScript `s.startsWith(pre)`. -/
def strStartsWith (s pre : String) : Bool := pre.toList.isPrefixOf s.toList

/-! ### Locale resolver -/

/-- The closed locale enumeration `locales` of `lib/locale.ts`. -/
def locales : List String := ["en", "fr", "ja"]

/-- `getLocale` of `lib/locale.ts`: `pathname.split("/").filter(Boolean)`
keeps the nonempty segments; the first one is returned when it is a member
of `locales`, otherwise the enumeration head `locales[0]` is returned
(also when there is no nonempty segment at all). -/
def getLocale (pathname : String) : String :=
  match ((jsSplitOnSlash pathname).filter (fun s => !s.isEmpty)).head? with
  | some locale =>
    if locales.contains locale then locale else locales.get ⟨0, by decide⟩
  | none => locales.get ⟨0, by decide⟩

/-- `pathnameHasLocale` of `lib/locale.ts`: some enumerated locale is a
leading path segment of the pathname. -/
def pathnameHasLocale (pathname : String) : Bool :=
  locales.any (fun locale =>
    strStartsWith pathname ("/" ++ locale ++ "/") || pathname == "/" ++ locale)

/-- `middleware` of `middleware.ts`.  `some p` models
`NextResponse.redirect` with the rewritten pathname `p`; `none` models an
early return without a redirect, leaving the pathname unchanged. -/
def middleware (pathname : String) : Option String :=
  if pathnameHasLocale pathname then none
  else some ("/" ++ getLocale pathname ++ pathname)

/-! ### Dictionary loader -/

structure HomeSection where
  title : String
  description : String
deriving DecidableEq

structure Dictionary where
  home : HomeSection
deriving DecidableEq

/-- Content of `dict/en.json`. -/
def enDictionary : Dictionary :=
  { home := { title := "AriaDocs - Template",
              description := "This comprehensive ....." } }

/-- Content of `dict/ja.json`. -/
def jaDictionary : Dictionary :=
  { home := { title := "AriaDocs - テンプレート",
              description := "Next.jsで作成されたこの包括的な ..." } }

/-- The dispatch table `dictionaries` of `lib/dictionary.ts`: it has
entries for `en` and `ja` only, even though `locales` also contains
`fr`. -/
def dictionaries : List (String × Dictionary) :=
  [("en", enDictionary), ("ja", jaDictionary)]

/-- `getDictionary` of `lib/dictionary.ts`, which evaluates
`dictionaries[locale]()`.  When `locale` is not a key of the dispatch
table the indexing yields `undefined` and the call raises a TypeError,
modelled as `Except.error`. -/
def getDictionary (locale : String) : Except String Dictionary :=
  match dictionaries.lookup locale with
  | some d => Except.ok d
  | none => Except.error "TypeError"

/-! ### Stable sorting

`Array.prototype.sort` is required by ECMA-262 to be stable, and for a
total transitive comparator every stable sort produces the same output,
so the source's sorts are embedded as insertion sort with a boolean
comparator. -/

/-- Insert `x` into `l`, before the first element `a` with `le x a`. -/
def insertBy {α : Type} (le : α → α → Bool) (x : α) : List α → List α
  | [] => [x]
  | a :: l => if le x a then x :: a :: l else a :: insertBy le x l

/-- Stable sort by the comparator `le`. -/
def sortBy {α : Type} (le : α → α → Bool) : List α → List α
  | [] => []
  | x :: l => insertBy le x (sortBy le l)

/-- JavaScript `Array.prototype.findIndex`, with the sentinel result -1
rendered as `none`. -/
def findIdxO {α : Type} (p : α → Bool) : List α → Option Nat
  | [] => none
  | x :: l => if p x then some 0 else (findIdxO p l).map (· + 1)

/-! ### Reading-time estimate -/

/-- The characters matched by the whitespace class of JavaScript regular
expressions. -/
def isJsWhitespace (c : Char) : Bool :=
  c == ' ' || c == '\t' || c == '\n' || c == '\r' ||
  c.toNat == 11 || c.toNat == 12 || c.toNat == 0xa0 ||
  c.toNat == 0x1680 || (0x2000 ≤ c.toNat && c.toNat ≤ 0x200a) ||
  c.toNat == 0x2028 || c.toNat == 0x2029 || c.toNat == 0x202f ||
  c.toNat == 0x205f || c.toNat == 0x3000 || c.toNat == 0xfeff

mutual

/-- State of the split where the piece accumulated so far (reversed in
`acc`) is still open: a whitespace character closes it. -/
def wsGo (acc : List Char) : List Char → List (List Char)
  | [] => [acc.reverse]
  | c :: cs =>
    if isJsWhitespace c then acc.reverse :: wsSkip cs else wsGo (c :: acc) cs

/-- State of the split inside a separator run of whitespace: reaching the
end of the text or the next non-whitespace character opens the next
piece. -/
def wsSkip : List Char → List (List Char)
  | [] => [[]]
  | c :: cs => if isJsWhitespace c then wsSkip cs else wsGo [c] cs

end

/-- The JavaScript split of `s` on runs of whitespace: the pieces in
order, including the empty piece contributed by leading or by trailing
whitespace, and the single empty piece produced for the empty string. -/
def jsSplitWhitespace (s : String) : List String :=
  (wsGo [] s.toList).map (fun cs => String.mk cs)

/-- `estimateReadingTime` of `lib/markdown.ts`:
the ceiling of `text.split(whitespace).length / 200`; over naturals the
ceiling of `n / 200` is `(n + 199) / 200`. -/
def estimateReadingTime (text : String) : Nat :=
  let wordsPerMinute := 200
  let wordCount := (jsSplitWhitespace text).length
  (wordCount + (wordsPerMinute - 1)) / wordsPerMinute

/-- Counter behind `wordTokenCount`; the flag records whether the
previous character belonged to a token. -/
def countTokensGo (inTok : Bool) : List Char → Nat
  | [] => 0
  | c :: cs =>
    if isJsWhitespace c then countTokensGo false cs
    else (if inTok then 0 else 1) + countTokensGo true cs

/-- Modelled from the spec: the number of whitespace-delimited words of a
text, i.e. the number of maximal nonempty runs of non-whitespace
characters.  This is the spec-side reading of word count, stated
separately so it can be compared with the split length the source
computes. -/
def wordTokenCount (s : String) : Nat := countTokensGo false s.toList

/-! ### Content loader and sibling resolver -/

/-- The frontmatter schema `MDXFrontmatter` of `lib/markdown.ts`. -/
structure MDXFrontmatter where
  title : String
  slug : String
  description : String
  author : String
  published : Int
  tags : List String
  githubUrl : Option String := none
deriving DecidableEq

/-- One source file of the collection after the external MDX compiler has
run on it: the raw file text, the parsed frontmatter, and the compiled
body (an artifact of the external compiler, carried uninterpreted). -/
structure SourceFile where
  frontmatter : MDXFrontmatter
  content : String
  fileContent : String
deriving DecidableEq

/-- An element of the array `readMDX` builds: the compiled document
spread together with `timeToRead`. -/
structure BlogEntry where
  frontmatter : MDXFrontmatter
  content : String
  timeToRead : Nat
deriving DecidableEq

/-- The record `readMDX` returns for a found slug. -/
structure PaginationResult where
  previous : Option MDXFrontmatter
  current : BlogEntry
  next : Option MDXFrontmatter
deriving DecidableEq

/-- The per-file map of `readMDX`: the compiled file is spread together
with the reading-time estimate of its raw text. -/
def entryOf (f : SourceFile) : BlogEntry :=
  ⟨f.frontmatter, f.content, estimateReadingTime f.fileContent⟩

/-- The array `readMDX` builds from the collection. -/
def entriesOf (files : List SourceFile) : List BlogEntry :=
  files.map entryOf

/-- The ascending comparator
`a.frontmatter.published - b.frontmatter.published` of `readMDX`. -/
def leAsc (a b : BlogEntry) : Bool :=
  a.frontmatter.published ≤ b.frontmatter.published

/-- The `findIndex` predicate `item.frontmatter.slug == slug`. -/
def slugMatches (slug : String) (e : BlogEntry) : Bool :=
  e.frontmatter.slug == slug

/-- `readMDX` of `lib/markdown.ts`.  The in-place `sort` makes every
later index into the resolved array an index into the sorted array, so:
sort ascending by `published`, locate the slug, and return the records at
the adjacent indices (`index - 1` renders the JavaScript access `arr[-1]`
as `none` when `index = 0`). -/
def readMDX (files : List SourceFile) (slug : String) : Option PaginationResult :=
  let sorted := sortBy leAsc (entriesOf files)
  match findIdxO (slugMatches slug) sorted with
  | none => none
  | some index =>
    (sorted[index]?).map (fun current =>
      { previous := (sorted[index + 1]?).map (fun e => e.frontmatter)
        current := current
        next := if index = 0 then none
                else (sorted[index - 1]?).map (fun e => e.frontmatter) })

/-- The descending comparator `b.published - a.published` of
`getAllMetaData`. -/
def leDesc (a b : MDXFrontmatter) : Bool := b.published ≤ a.published

/-- The descending in-place sort of `getAllMetaData`. -/
def sortDescending (metas : List MDXFrontmatter) : List MDXFrontmatter :=
  sortBy leDesc metas

/-- The tag filter of `getAllMetaData`: keep the documents whose tag list
contains `tag`. -/
def filterByTag (metas : List MDXFrontmatter) (tag : String) : List MDXFrontmatter :=
  metas.filter (fun m => m.tags.contains tag)

/-- `getAllMetaData` of `lib/markdown.ts` over well-formed metadata: sort
descending in place, then filter when the tag option is a non-empty
string (the empty default is falsy, so that path returns the sorted array
unfiltered). -/
def getAllMetaData (metas : List MDXFrontmatter) (tag : String) : List MDXFrontmatter :=
  let sorted := sortDescending metas
  if tag = "" then sorted else filterByTag sorted tag

/-! ### Raw frontmatter

`compileMDX<MDXFrontmatter>` is a compile-time type ascription only:
nothing in `getAllMetaData` checks at runtime that the parsed frontmatter
has the required fields, so the parsed record is embedded with every
field optional. -/

structure RawFrontmatter where
  title : Option String
  slug : Option String
  description : Option String
  author : Option String
  published : Option Int
  tags : Option (List String)
deriving DecidableEq

/-- Descending comparator of the raw model.  With an absent `published`
the JavaScript comparator evaluates to NaN and the resulting order is
unspecified; `getD 0` is one arbitrary resolution, and the theorems below
use only facts invariant under reordering. -/
def leDescRaw (a b : RawFrontmatter) : Bool :=
  b.published.getD 0 ≤ a.published.getD 0

/-- `getAllMetaData` over raw frontmatter.  There is no validation step:
documents with absent fields flow through unchanged.  The only failure
the source can produce is a TypeError, raised when a non-empty tag filter
reaches `item.tags.includes(tag)` on a document whose `tags` is absent. -/
def getAllMetaDataRaw (files : List RawFrontmatter) (tag : String) :
    Except String (List RawFrontmatter) :=
  let sorted := sortBy leDescRaw files
  if tag = "" then Except.ok sorted
  else if sorted.all (fun d => d.tags.isSome) then
    Except.ok (sorted.filter (fun d => (d.tags.getD []).contains tag))
  else Except.error "TypeError"

/-- A document with every required frontmatter field absent. -/
def malformedDoc : RawFrontmatter := ⟨none, none, none, none, none, none⟩

/-! ### Concrete fixtures -/

def fileA : SourceFile :=
  { frontmatter := { title := "A", slug := "a", description := "da",
                     author := "n", published := 1, tags := ["t"] },
    content := "ca", fileContent := "word" }

def fileB : SourceFile :=
  { frontmatter := { title := "B", slug := "b", description := "db",
                     author := "n", published := 2, tags := ["t"] },
    content := "cb", fileContent := "word" }

def fileC : SourceFile :=
  { frontmatter := { title := "C", slug := "c", description := "dc",
                     author := "n", published := 3, tags := ["t"] },
    content := "cc", fileContent := "word" }

/-- A text of four hundred words separated by single spaces. -/
def doc400 : String := String.intercalate " " (List.replicate 400 "w")

/-! ### Lemmas about the stable sort -/

theorem mem_insertBy {α : Type} (le : α → α → Bool) (x y : α) (s : List α) :
    y ∈ insertBy le x s ↔ y = x ∨ y ∈ s := by
  induction s with
  | nil => simp [insertBy]
  | cons a t ih =>
    by_cases h : le x a = true
    · simp [insertBy, h]
    · simp only [insertBy, if_neg h, List.mem_cons, ih]
      tauto

theorem mem_sortBy {α : Type} (le : α → α → Bool) (y : α) (l : List α) :
    y ∈ sortBy le l ↔ y ∈ l := by
  induction l with
  | nil => simp [sortBy]
  | cons x t ih => simp [sortBy, mem_insertBy le x y, ih]

theorem pairwise_insertBy {α : Type} (le : α → α → Bool)
    (htot : ∀ a b, le a b = true ∨ le b a = true)
    (htrans : ∀ a b c, le a b = true → le b c = true → le a c = true)
    (x : α) {s : List α} (hs : s.Pairwise (fun a b => le a b = true)) :
    (insertBy le x s).Pairwise (fun a b => le a b = true) := by
  induction s with
  | nil => simp [insertBy]
  | cons a t ih =>
    rw [List.pairwise_cons] at hs
    obtain ⟨ha, ht⟩ := hs
    by_cases h : le x a = true
    · simp only [insertBy, if_pos h]
      refine List.Pairwise.cons ?_ (List.Pairwise.cons ha ht)
      intro b hb
      rcases List.mem_cons.mp hb with rfl | hbt
      · exact h
      · exact htrans _ _ _ h (ha b hbt)
    · simp only [insertBy, if_neg h]
      refine List.Pairwise.cons ?_ (ih ht)
      intro b hb
      rcases (mem_insertBy le x b t).mp hb with rfl | hbt
      · rcases htot b a with hxa | hax
        · exact absurd hxa h
        · exact hax
      · exact ha b hbt

theorem pairwise_sortBy {α : Type} (le : α → α → Bool)
    (htot : ∀ a b, le a b = true ∨ le b a = true)
    (htrans : ∀ a b c, le a b = true → le b c = true → le a c = true)
    (l : List α) : (sortBy le l).Pairwise (fun a b => le a b = true) := by
  induction l with
  | nil => simp [sortBy]
  | cons x t ih => exact pairwise_insertBy le htot htrans x ih

theorem insertBy_of_forall_le {α : Type} (le : α → α → Bool) (x : α)
    {s : List α} (h : ∀ y ∈ s, le x y = true) : insertBy le x s = x :: s := by
  cases s with
  | nil => rfl
  | cons a t => simp [insertBy, h a (List.mem_cons_self a t)]

theorem filter_insertBy {α : Type} (le : α → α → Bool)
    (htrans : ∀ a b c, le a b = true → le b c = true → le a c = true)
    (p : α → Bool) (x : α) {s : List α}
    (hs : s.Pairwise (fun a b => le a b = true)) :
    (insertBy le x s).filter p =
      if p x then insertBy le x (s.filter p) else s.filter p := by
  induction s with
  | nil => by_cases hp : p x = true <;> simp [insertBy, List.filter_cons, hp]
  | cons a t ih =>
    rw [List.pairwise_cons] at hs
    obtain ⟨ha, ht⟩ := hs
    by_cases hxa : le x a = true
    · by_cases hpx : p x = true
      · by_cases hpa : p a = true
        · simp [insertBy, hxa, List.filter_cons, hpx, hpa]
        · have hall : ∀ y ∈ t.filter p, le x y = true := fun y hy =>
            htrans _ _ _ hxa (ha y (List.mem_filter.mp hy).1)
          simp [insertBy, hxa, List.filter_cons, hpx, hpa,
            insertBy_of_forall_le le x hall]
      · simp [insertBy, hxa, List.filter_cons, hpx]
    · by_cases hpa : p a = true
      · by_cases hpx : p x = true
        · simp [insertBy, hxa, List.filter_cons, hpa, hpx, ih ht]
        · simp [insertBy, hxa, List.filter_cons, hpa, hpx, ih ht]
      · simp [insertBy, hxa, List.filter_cons, hpa, ih ht]

theorem filter_sortBy {α : Type} (le : α → α → Bool)
    (htot : ∀ a b, le a b = true ∨ le b a = true)
    (htrans : ∀ a b c, le a b = true → le b c = true → le a c = true)
    (p : α → Bool) (l : List α) :
    (sortBy le l).filter p = sortBy le (l.filter p) := by
  induction l with
  | nil => rfl
  | cons x t ih =>
    have hp := pairwise_sortBy le htot htrans t
    rw [List.filter_cons]
    by_cases hpx : p x = true
    · simp only [sortBy, filter_insertBy le htrans p x hp, hpx, if_pos, ih]
    · simp only [sortBy, filter_insertBy le htrans p x hp, hpx, if_neg, ih]
      simp [hpx, ih]

/-! ### Lemmas about findIdxO and the whitespace split -/

theorem findIdxO_some {α : Type} (p : α → Bool) (l : List α) (i : Nat)
    (h : findIdxO p l = some i) : ∃ y, l[i]? = some y ∧ p y = true := by
  induction l generalizing i with
  | nil => simp [findIdxO] at h
  | cons a t ih =>
    simp only [findIdxO] at h
    by_cases hpa : p a = true
    · rw [if_pos hpa] at h
      injection h with h
      subst h
      exact ⟨a, by simp, hpa⟩
    · rw [if_neg hpa] at h
      cases hf : findIdxO p t with
      | none => rw [hf] at h; simp at h
      | some j =>
        rw [hf] at h
        simp only [Option.map] at h
        obtain ⟨y, hy, hpy⟩ := ih j hf
        injection h with h
        refine ⟨y, ?_, hpy⟩
        rw [← h]
        simpa using hy

theorem findIdxO_of_mem {α : Type} (p : α → Bool) {x : α} {l : List α}
    (hm : x ∈ l) (hp : p x = true) : ∃ i, findIdxO p l = some i := by
  induction l with
  | nil => simp at hm
  | cons a t ih =>
    by_cases hpa : p a = true
    · exact ⟨0, by simp [findIdxO, hpa]⟩
    · rcases List.mem_cons.mp hm with rfl | hmt
      · exact absurd hp hpa
      · obtain ⟨j, hj⟩ := ih hmt
        exact ⟨j + 1, by simp [findIdxO, hpa, hj]⟩

theorem wsGo_wsSkip_ne_nil (cs : List Char) :
    (∀ acc, wsGo acc cs ≠ []) ∧ wsSkip cs ≠ [] := by
  induction cs with
  | nil => exact ⟨fun acc => by simp [wsGo], by simp [wsSkip]⟩
  | cons c cs ih =>
    constructor
    · intro acc
      by_cases h : isJsWhitespace c = true
      · simp [wsGo, h]
      · simp only [wsGo, if_neg h]
        exact ih.1 _
    · by_cases h : isJsWhitespace c = true
      · simp only [wsSkip, if_pos h]
        exact ih.2
      · simp only [wsSkip, if_neg h]
        exact ih.1 _

theorem jsSplitWhitespace_ne_nil (s : String) : jsSplitWhitespace s ≠ [] := by
  simp only [jsSplitWhitespace, ne_eq, List.map_eq_nil_iff]
  exact (wsGo_wsSkip_ne_nil s.toList).1 []

/-! ### Claim theorems -/

/-- C8: for every pathname `P`, `pathnameHasLocale P` returns `true` if
and only if some locale `L` of the closed enumeration
`["en", "fr", "ja"]` satisfies: `P` starts with the segment prefix built
from `L`, or `P` equals `"/" ++ L`. -/
theorem pathnameHasLocale_iff_enumerated (P : String) :
    pathnameHasLocale P = true ↔
      ∃ L, L ∈ (["en", "fr", "ja"] : List String) ∧
        (strStartsWith P ("/" ++ L ++ "/") = true ∨ P = "/" ++ L) := by
  simp only [pathnameHasLocale, locales, List.any_eq_true, Bool.or_eq_true,
    beq_iff_eq]

/-- C9: the locale `fr` belongs to the closed enumeration, yet the
dispatch table of `getDictionary` defines loaders only for `en` and `ja`,
so `getDictionary "fr"` fails with a TypeError, and in general
`getDictionary l` succeeds exactly when `l` is `en` or `ja`. -/
theorem getDictionary_fr_undefined :
    "fr" ∈ locales ∧ getDictionary "fr" = Except.error "TypeError" ∧
      ∀ l, (∃ d, getDictionary l = Except.ok d) ↔ (l = "en" ∨ l = "ja") := by
  refine ⟨by decide, rfl, ?_⟩
  intro l
  constructor
  · rintro ⟨d, hd⟩
    by_cases h1 : l = "en"
    · exact Or.inl h1
    by_cases h2 : l = "ja"
    · exact Or.inr h2
    have hb1 : (l == "en") = false := by simp [h1]
    have hb2 : (l == "ja") = false := by simp [h2]
    have hlook : dictionaries.lookup l = none := by
      simp [dictionaries, List.lookup, hb1, hb2]
    simp [getDictionary, hlook] at hd
  · rintro (rfl | rfl)
    · exact ⟨enDictionary, rfl⟩
    · exact ⟨jaDictionary, rfl⟩

/-- C10: for every input text, including the empty string,
`estimateReadingTime` returns at least `1`: the split of any string on
whitespace has at least one piece, so the ceiling is never `0`. -/
theorem estimateReadingTime_ge_one (text : String) :
    1 ≤ estimateReadingTime text := by
  have hne : jsSplitWhitespace text ≠ [] := jsSplitWhitespace_ne_nil text
  have hlen : 1 ≤ (jsSplitWhitespace text).length :=
    List.length_pos.mpr hne
  show 1 ≤ ((jsSplitWhitespace text).length + (200 - 1)) / 200
  rw [Nat.le_div_iff_mul_le (by norm_num)]
  omega

/-- C1 counterexample: the pathname `"//fr"` has no recognized locale
prefix, yet the middleware redirects it to `"/fr//fr"`, not to the
default-locale rewrite `"/" ++ "en" ++ "//fr"` the claim prescribes. -/
theorem middleware_default_locale_counterexample :
    pathnameHasLocale "//fr" = false ∧ middleware "//fr" = some "/fr//fr" ∧
      middleware "//fr" ≠ some ("/" ++ "en" ++ "//fr") := by decide

/-- C1 (amended): for every pathname `P` without a recognized locale
prefix the middleware signals a redirect to `"/" ++ getLocale P ++ P`;
the resolved locale `getLocale P` is the default `"en"` whenever the
first nonempty slash-separated segment of `P` is not an enumerated locale
(in particular for every pathname whose segments carry no locale); for
every `P` with a recognized prefix the middleware returns without a
redirect and leaves the pathname unchanged. -/
theorem middleware_rewrite (P : String) :
    (pathnameHasLocale P = false → middleware P = some ("/" ++ getLocale P ++ P)) ∧
    ((∀ seg, ((jsSplitOnSlash P).filter (fun s => !s.isEmpty)).head? = some seg →
        locales.contains seg = false) → getLocale P = "en") ∧
    (pathnameHasLocale P = true → middleware P = none) := by
  refine ⟨?_, ?_, ?_⟩
  · intro h
    simp [middleware, h]
  · intro h
    unfold getLocale
    cases hh : ((jsSplitOnSlash P).filter (fun s => !s.isEmpty)).head? with
    | none => rfl
    | some seg =>
      simp only [h seg hh]
      rfl
  · intro h
    simp [middleware, h]

/-- C1 witness: the pathname `"/about"` is redirected to `"/en/about"`,
and the already-prefixed `"/en/about"` passes through untouched. -/
theorem middleware_rewrite_witness :
    middleware "/about" = some ("/" ++ getLocale "/about" ++ "/about") ∧
      getLocale "/about" = "en" ∧ middleware "/en/about" = none :=
  ⟨(middleware_rewrite "/about").1 (by decide),
   (middleware_rewrite "/about").2.1 (by
      intro seg hseg
      have h2 : ((jsSplitOnSlash "/about").filter (fun s => !s.isEmpty)).head? =
          some "about" := by decide
      rw [h2] at hseg
      injection hseg with h3
      subst h3
      decide),
   (middleware_rewrite "/en/about").2.2 (by decide)⟩

/-- Helper: when the slug search over the sorted entries yields index `i`,
`readMDX` returns the record built from the entries adjacent to `i`. -/
theorem readMDX_found (files : List SourceFile) (slug : String) (i : Nat)
    (h : findIdxO (slugMatches slug) (sortBy leAsc (entriesOf files)) = some i) :
    ∃ current, (sortBy leAsc (entriesOf files))[i]? = some current ∧
      slugMatches slug current = true ∧
      readMDX files slug = some
        { previous := ((sortBy leAsc (entriesOf files))[i + 1]?).map
            (fun e => e.frontmatter),
          current := current,
          next := if i = 0 then none
                  else ((sortBy leAsc (entriesOf files))[i - 1]?).map
                    (fun e => e.frontmatter) } := by
  obtain ⟨current, hc, hpc⟩ := findIdxO_some _ _ i h
  refine ⟨current, hc, hpc, ?_⟩
  simp [readMDX, h, hc]

/-- C2: `readMDX` sorts the collection ascending by published timestamp;
when no document in the sorted collection matches the slug the result is
`none`, and when the first match is at index `i` the result holds the
document at index `i` as `current`, the frontmatter at index `i + 1`
(when it exists) as `previous`, and the frontmatter at index `i - 1`
(when it exists, i.e. when `i` is nonzero) as `next`. -/
theorem readMDX_resolves_siblings (files : List SourceFile) (slug : String) :
    (findIdxO (slugMatches slug) (sortBy leAsc (entriesOf files)) = none →
      readMDX files slug = none) ∧
    (∀ i, findIdxO (slugMatches slug) (sortBy leAsc (entriesOf files)) = some i →
      ∃ current, (sortBy leAsc (entriesOf files))[i]? = some current ∧
        readMDX files slug = some
          { previous := ((sortBy leAsc (entriesOf files))[i + 1]?).map
              (fun e => e.frontmatter),
            current := current,
            next := if i = 0 then none
                    else ((sortBy leAsc (entriesOf files))[i - 1]?).map
                      (fun e => e.frontmatter) }) := by
  constructor
  · intro h
    simp [readMDX, h]
  · intro i h
    obtain ⟨current, hc, hpc, hr⟩ := readMDX_found files slug i h
    exact ⟨current, hc, hr⟩

/-- C2 witness: in the two-document collection the slug `b` is found at
index 1 of the ascending order, with `next` pointing at the older
document and `previous` absent. -/
theorem readMDX_resolves_siblings_witness :
    ∃ current, (sortBy leAsc (entriesOf [fileA, fileB]))[1]? = some current ∧
      readMDX [fileA, fileB] "b" = some
        { previous := ((sortBy leAsc (entriesOf [fileA, fileB]))[1 + 1]?).map
            (fun e => e.frontmatter),
          current := current,
          next := if 1 = 0 then none
                  else ((sortBy leAsc (entriesOf [fileA, fileB]))[1 - 1]?).map
                    (fun e => e.frontmatter) } :=
  (readMDX_resolves_siblings [fileA, fileB] "b").2 1 (by decide)

/-- C3 counterexample: in the three-document collection with ascending
published order A, B, C, resolving A's slug yields a present `previous`
(B's frontmatter), and resolving C's slug yields a present `next` (B's
frontmatter) — the claim asserted both would be absent. -/
theorem readMDX_extremes_counterexample :
    (readMDX [fileA, fileB, fileC] "a").map (fun r => r.previous) =
      some (some fileB.frontmatter) ∧
    ¬ ((readMDX [fileA, fileB, fileC] "a").map (fun r => r.previous) = some none) ∧
    (readMDX [fileA, fileB, fileC] "c").map (fun r => r.next) =
      some (some fileB.frontmatter) ∧
    ¬ ((readMDX [fileA, fileB, fileC] "c").map (fun r => r.next) = some none) := by
  decide

/-- C3 (amended): for a collection of exactly three documents with
strictly increasing published timestamps A < B < C, `readMDX` on A's slug
yields `next` absent (with `previous` = B's frontmatter), and `readMDX`
on C's slug yields `previous` absent (with `next` = B's frontmatter). -/
theorem readMDX_extremes (A B C : SourceFile)
    (hAB : A.frontmatter.published < B.frontmatter.published)
    (hBC : B.frontmatter.published < C.frontmatter.published)
    (hAC : A.frontmatter.slug ≠ C.frontmatter.slug)
    (hBCslug : B.frontmatter.slug ≠ C.frontmatter.slug) :
    (readMDX [A, B, C] A.frontmatter.slug).map (fun r => (r.previous, r.next)) =
      some (some B.frontmatter, none) ∧
    (readMDX [A, B, C] C.frontmatter.slug).map (fun r => (r.previous, r.next)) =
      some (none, some B.frontmatter) := by
  have h1 : leAsc (entryOf B) (entryOf C) = true := by
    simp only [leAsc, entryOf, decide_eq_true_eq]
    exact le_of_lt hBC
  have h2 : leAsc (entryOf A) (entryOf B) = true := by
    simp only [leAsc, entryOf, decide_eq_true_eq]
    exact le_of_lt hAB
  have hsorted : sortBy leAsc (entriesOf [A, B, C]) =
      [entryOf A, entryOf B, entryOf C] := by
    simp only [entriesOf, List.map, sortBy]
    rw [show insertBy leAsc (entryOf C) [] = [entryOf C] from rfl]
    rw [show insertBy leAsc (entryOf B) [entryOf C] = [entryOf B, entryOf C] from
      by simp [insertBy, h1]]
    simp [insertBy, h2]
  have hbAC : (A.frontmatter.slug == C.frontmatter.slug) = false := by simp [hAC]
  have hbBC : (B.frontmatter.slug == C.frontmatter.slug) = false := by simp [hBCslug]
  have hfA : findIdxO (slugMatches A.frontmatter.slug)
      [entryOf A, entryOf B, entryOf C] = some 0 := by
    simp [findIdxO, slugMatches, entryOf]
  have hfC : findIdxO (slugMatches C.frontmatter.slug)
      [entryOf A, entryOf B, entryOf C] = some 2 := by
    simp [findIdxO, slugMatches, entryOf, hbAC, hbBC]
  constructor
  · simp only [readMDX, hsorted, hfA]
    simp [entryOf]
  · simp only [readMDX, hsorted, hfC]
    simp [entryOf]

/-- C3 witness: the amended statement at the concrete three-document
collection. -/
theorem readMDX_extremes_witness :
    (readMDX [fileA, fileB, fileC] fileA.frontmatter.slug).map
        (fun r => (r.previous, r.next)) = some (some fileB.frontmatter, none) ∧
    (readMDX [fileA, fileB, fileC] fileC.frontmatter.slug).map
        (fun r => (r.previous, r.next)) = some (none, some fileB.frontmatter) :=
  readMDX_extremes fileA fileB fileC (by decide) (by decide) (by decide) (by decide)

/-- C4 counterexample: loading a collection that contains a document with
every required frontmatter field absent does not fail: the load succeeds
and the document is returned in the result. -/
theorem getAllMetaData_no_validation_counterexample :
    getAllMetaDataRaw [malformedDoc] "" = Except.ok [malformedDoc] ∧
    malformedDoc.title = none ∧ malformedDoc.slug = none ∧
    malformedDoc.description = none ∧ malformedDoc.author = none ∧
    malformedDoc.published = none ∧ malformedDoc.tags = none :=
  ⟨rfl, rfl, rfl, rfl, rfl, rfl, rfl⟩

/-- C4 (amended): the collection load performs no frontmatter validation
and raises no `MalformedDocumentError`: with no tag filter every document
of the collection, however malformed, appears in the successful result. -/
theorem getAllMetaData_no_validation (files : List RawFrontmatter)
    (d : RawFrontmatter) (hd : d ∈ files) :
    ∃ l, getAllMetaDataRaw files "" = Except.ok l ∧ d ∈ l := by
  refine ⟨sortBy leDescRaw files, ?_, ?_⟩
  · simp [getAllMetaDataRaw]
  · exact (mem_sortBy leDescRaw d files).mpr hd

/-- C4 witness: the amended statement at the fully malformed document. -/
theorem getAllMetaData_no_validation_witness :
    ∃ l, getAllMetaDataRaw [malformedDoc] "" = Except.ok l ∧ malformedDoc ∈ l :=
  getAllMetaData_no_validation [malformedDoc] malformedDoc (by decide)

/-- C5 counterexample: on the empty string the source computes reading
time 1, while the claimed formula over whitespace-delimited tokens (the
empty string has none) computes the ceiling of 0 / 200 = 0. -/
theorem estimateReadingTime_tokens_counterexample :
    estimateReadingTime "" = 1 ∧ (wordTokenCount "" + 199) / 200 = 0 := by
  decide

/-- C5 (amended): the estimated reading time equals the ceiling of
`split_count / 200`, where `split_count` is the number of pieces of the
whitespace split (this equals the whitespace-delimited token count except
that the empty string and leading or trailing whitespace contribute empty
pieces); in particular a 400-word document estimates to 2 and a 1-word
document to 1. -/
theorem estimateReadingTime_formula :
    (∀ text, estimateReadingTime text =
      ((jsSplitWhitespace text).length + 199) / 200) ∧
    wordTokenCount doc400 = 400 ∧ estimateReadingTime doc400 = 2 ∧
    wordTokenCount "word" = 1 ∧ estimateReadingTime "word" = 1 :=
  ⟨fun text => rfl, by decide, by decide, by decide, by decide⟩

/-- C6: filtering by a tag commutes with the descending sort used by
`getAllMetaData`: sorting the filtered documents equals filtering the
sorted documents. -/
theorem sort_filter_commute (metas : List MDXFrontmatter) (tag : String) :
    sortDescending (filterByTag metas tag) =
      filterByTag (sortDescending metas) tag := by
  have htot : ∀ a b : MDXFrontmatter, leDesc a b = true ∨ leDesc b a = true := by
    intro a b
    simp only [leDesc, decide_eq_true_eq]
    exact Int.le_total _ _
  have htrans : ∀ a b c : MDXFrontmatter,
      leDesc a b = true → leDesc b c = true → leDesc a c = true := by
    intro a b c hab hbc
    simp only [leDesc, decide_eq_true_eq] at hab hbc ⊢
    omega
  unfold sortDescending filterByTag
  exact (filter_sortBy leDesc htot htrans _ metas).symm

/-- C7: in a collection with unique slugs, loading any member document by
its slug returns a present result whose current document carries that
slug. -/
theorem readMDX_roundtrip (files : List SourceFile) (d : SourceFile)
    (huniq : files.Pairwise (fun a b => a.frontmatter.slug ≠ b.frontmatter.slug))
    (hd : d ∈ files) :
    ∃ r, readMDX files d.frontmatter.slug = some r ∧
      r.current.frontmatter.slug = d.frontmatter.slug := by
  have hmem : entryOf d ∈ sortBy leAsc (entriesOf files) :=
    (mem_sortBy leAsc (entryOf d) (entriesOf files)).mpr
      (List.mem_map_of_mem entryOf hd)
  have hp : slugMatches d.frontmatter.slug (entryOf d) = true := by
    simp [slugMatches, entryOf]
  obtain ⟨i, hi⟩ := findIdxO_of_mem _ hmem hp
  obtain ⟨y, hy, hpy, hr⟩ := readMDX_found files d.frontmatter.slug i hi
  refine ⟨_, hr, ?_⟩
  simpa [slugMatches] using hpy

/-- C7 witness: the round trip at a concrete two-document collection. -/
theorem readMDX_roundtrip_witness :
    ∃ r, readMDX [fileA, fileB] fileA.frontmatter.slug = some r ∧
      r.current.frontmatter.slug = fileA.frontmatter.slug :=
  readMDX_roundtrip [fileA, fileB] fileA (by decide) (by decide)
